import Mathlib

/-!
Verification of the local semantic retrieval and diagram-generation engine
(chunker, vector index builder, index cache, retriever, diagram generator,
heuristic fallback) against its natural-language specification.

Strings are modelled as `List Char` (JavaScript strings; `String.length`
counts UTF-16 units, which coincides with the character count on the
inputs considered here).  JavaScript numbers are modelled as real numbers;
`Float32Array`/`Array` conversions are identities in this model, and
`Math.sqrt` is `Real.sqrt`.  The browser's `localStorage` is modelled as a
typed key-value map in which a present-but-unparseable payload is marked
explicitly, so that both `JSON.parse` failures and missing keys can be
expressed.  Fallible asynchronous collaborators (file-content fetch, the
generation provider) are passed in as explicit `Option`/`Except` valued
arguments.
-/

set_option maxRecDepth 8000

/-- Whitespace characters removed by JavaScript `String.prototype.trim`
(the ASCII ones, which are the only ones arising here). -/
def isJsWs (c : Char) : Bool :=
  c = ' ' || c = '\t' || c = '\n' || c = '\r' || c = '\x0b' || c = '\x0c'

/-- Model of JavaScript `String.prototype.trim`: drop whitespace from both
ends. -/
def jsTrim (l : List Char) : List Char :=
  ((l.dropWhile isJsWs).reverse.dropWhile isJsWs).reverse

/-- Model of `content.split(/\n{2,}/)`: split at every maximal run of two
or more newline characters.  `cur` is the reversed text of the section
being accumulated and `p` counts the newline run currently pending. -/
def splitRun : List Char → List Char → Nat → List (List Char)
  | [], cur, p =>
      if 2 ≤ p then [cur.reverse, []]
      else [(List.replicate p '\n' ++ cur).reverse]
  | c :: rest, cur, p =>
      if c = '\n' then splitRun rest cur (p + 1)
      else if 2 ≤ p then cur.reverse :: splitRun rest [c] 0
      else splitRun rest (c :: (List.replicate p '\n' ++ cur)) 0

/-- Decimal digits of `n`, most significant first, by fuel-bounded
structural recursion (`fuel > n` suffices); models JavaScript
number-to-string interpolation for natural numbers. -/
def natCharsAux : Nat → Nat → List Char
  | 0, _ => []
  | fuel + 1, n =>
      if n < 10 then [Char.ofNat (48 + n)]
      else natCharsAux fuel (n / 10) ++ [Char.ofNat (48 + n % 10)]

/-- Decimal representation of a natural number, as interpolated into
JavaScript template literals. -/
def natChars (n : Nat) : List Char :=
  natCharsAux (n + 1) n

/-- `MAX_CHUNK_TOKENS` from the source. -/
def MAX_CHUNK_TOKENS : Nat := 260

/-- `MAX_FILES_FOR_INDEX` from the source. -/
def MAX_FILES_FOR_INDEX : Nat := 60

/-- The chunk record `{id, path, content}`. -/
structure Chunk where
  id : List Char
  path : List Char
  content : List Char
deriving DecidableEq

/-- The two-newline separator appended after each accumulated section. -/
def dblNl : List Char := ['\n', '\n']

/-- The sections of a file: split on blank-line runs, trim each candidate,
discard empties (`content.split(/\n{2,}/).map(s => s.trim()).filter(Boolean)`). -/
def sectionsOf (content : List Char) : List (List Char) :=
  ((splitRun content [] 0).map jsTrim).filter (fun s => !s.isEmpty)

/-- One step of the greedy accumulation loop in `chunkSourceFile`: the
state is `(chunks so far, buffer)`; a section either extends the buffer or
flushes it. -/
def chunkStep (st : List (List Char) × List Char) (sect : List Char) :
    List (List Char) × List Char :=
  if st.2.length + sect.length < MAX_CHUNK_TOKENS then
    (st.1, st.2 ++ sect ++ dblNl)
  else
    (st.1 ++ [jsTrim st.2], sect ++ dblNl)

/-- The trailing flush of `chunkSourceFile`: append the final buffer,
trimmed, when it is non-empty (`if (buffer.trim()) chunks.push(...)`). -/
def finalizeTexts (st : List (List Char) × List Char) : List (List Char) :=
  if !(jsTrim st.2).isEmpty then st.1 ++ [jsTrim st.2] else st.1

/-- `chunkSourceFile(content, path)` from the source: split into sections,
greedily accumulate them into buffers of bounded size, flush a trailing
non-empty buffer, and attach ids `path::idx`. -/
def chunkSourceFile (content path : List Char) : List Chunk :=
  if content.isEmpty then []
  else
    let sections := sectionsOf content
    let texts := finalizeTexts (sections.foldl chunkStep ([], []))
    texts.enum.map fun p =>
      { id := path ++ "::".toList ++ natChars p.1, path := path, content := p.2 }

/-- "No two adjacent newlines": the property separating the sections a
blank-line split produces. -/
def notNN (a b : Char) : Prop := ¬(a = '\n' ∧ b = '\n')

/-- The shape invariant of every section the splitter emits: non-empty,
no blank line inside, and trimmed at both ends. -/
def GoodSection (s : List Char) : Prop :=
  s ≠ [] ∧ List.Chain' notNN s ∧
  (∀ c, s.head? = some c → isJsWs c = false) ∧
  (∀ c, s.getLast? = some c → isJsWs c = false)

/-- The buffer text corresponding to a list of accumulated sections:
each section followed by the two-newline separator. -/
def bufOf (parts : List (List Char)) : List Char :=
  (parts.map (fun s => s ++ dblNl)).flatten

/-- The vector index `{key, chunks, vectors, dims}`.  Vectors are
sequences of (real-valued) numbers. -/
structure Index where
  key : List Char
  chunks : List Chunk
  vectors : List (List ℝ)
  dims : Nat

/-- A sampled file handed to the index builder (`{path}`). -/
structure FileRef where
  path : List Char
deriving DecidableEq

/-- Model of `localStorage` for the index cache: a map from keys to
payloads.  `none` means the key is absent; `some none` is a stored
payload that `JSON.parse` cannot decode (corrupt); `some (some i)` is a
well-formed persisted index.  The `Float32Array`/`Array` vector
conversions performed by `saveIndex`/`loadIndex` are identities in the
real-number model, so the decoded payload is the index itself. -/
def Storage : Type := List Char → Option (Option Index)

/-- The storage key used by the index cache: `rag-index:` ++ key. -/
def storageKey (key : List Char) : List Char :=
  "rag-index:".toList ++ key

/-- `saveIndex(index)` from the source: a no-op on an index with a falsy
key; otherwise writes the serializable form under `rag-index:` ++ key.
`ok = false` models a storage failure (`localStorage.setItem` throwing,
e.g. on exceeded quota), which the source catches and logs, leaving the
store unchanged. -/
def saveIndex (st : Storage) (ok : Bool) (index : Index) : Storage :=
  if index.key.isEmpty then st
  else if ok then
    fun k => if k = storageKey index.key then some (some index) else st k
  else st

/-- `loadIndex(key)` from the source: read `rag-index:` ++ key; a missing
payload or a parse failure yields `none`; otherwise the vectors are
re-materialized (an identity here) and the index returned. -/
def loadIndex (st : Storage) (key : List Char) : Option Index :=
  match st (storageKey key) with
  | none => none
  | some none => none
  | some (some parsed) => some parsed

/-- `buildRagIndex` from the source.  `fetchFileContent` is the injected
per-file content fetch (curried over the ambient `owner`, `repo`,
`branch`, `token` arguments); `none` models the per-file fetch throwing,
which the source catches, logging and skipping the file.  `embed` is the
embedding provider's per-text vector (provider construction is assumed to
succeed; its failure aborts the whole build and is outside the claims
settled here).  Returns the built index together with the storage after
the trailing `saveIndex` call. -/
def buildRagIndex (owner repo branch : List Char) (sampledFiles : List FileRef)
    (fetchFileContent : List Char → Option (List Char))
    (embed : List Char → List ℝ) (st : Storage) (ok : Bool) :
    Index × Storage :=
  let filesToProcess := sampledFiles.take MAX_FILES_FOR_INDEX
  let chunks := (filesToProcess.map fun file =>
    match fetchFileContent file.path with
    | some content => chunkSourceFile content file.path
    | none => []).flatten
  let vectors := chunks.map fun chunk => embed chunk.content
  let index : Index :=
    { key := owner ++ "/".toList ++ repo ++ "@".toList ++ branch
      chunks := chunks
      vectors := vectors
      dims := match vectors.head? with
              | some v => v.length
              | none => 0 }
  (index, saveIndex st ok index)

/-- `cosineSimilarity(a, b)` from the source:
`dot / (Math.sqrt(normA) * Math.sqrt(normB) + 1e-9)`, where the loop runs
over the positions of `a` (so `b` is implicitly truncated or padded with
junk; the claims only use it with equal-length vectors). -/
noncomputable def cosineSimilarity (a b : List ℝ) : ℝ :=
  let dot := ((a.zip b).map fun p => p.1 * p.2).sum
  let normA := (a.map fun x => x * x).sum
  let normB := ((a.zip b).map fun p => p.2 * p.2).sum
  dot / (Real.sqrt normA * Real.sqrt normB + 1 / 1000000000)

/-- A retrieval result `{score, chunk}`.  In the source the chunk is
`index.chunks[idx]`; the data-model invariant
`len(chunks) == len(vectors)` keeps the access in bounds, and the
retrieval theorems carry that invariant, so an out-of-range access (which
would yield `undefined` in JavaScript) is modelled by a default chunk. -/
structure RetrievalResult where
  score : ℝ
  chunk : Chunk

/-- The comparator `(a, b) => b.score - a.score` passed to
`Array.prototype.sort`, as the relation "`a` may precede `b`": descending
by score.  `Array.prototype.sort` is guaranteed stable (ECMAScript 2019),
and a stable sort's output is uniquely determined by a consistent
comparator, so the stable `List.insertionSort` below computes exactly the
sorted array. -/
def scoreDesc (a b : RetrievalResult) : Prop := b.score ≤ a.score

noncomputable instance : DecidableRel scoreDesc := fun a b =>
  inferInstanceAs (Decidable (b.score ≤ a.score))

instance : IsTotal RetrievalResult scoreDesc := ⟨fun a b => le_total b.score a.score⟩
instance : IsTrans RetrievalResult scoreDesc :=
  ⟨fun _ _ _ h h' => le_trans h' h⟩

/-- `arr.slice(0, k)` for an arbitrary integer `k`: a nonnegative `k`
takes the first `k` elements; a negative `k` counts from the end
(`max(len + k, 0)`). -/
def jsSlice (k : Int) (l : List α) : List α :=
  if k < 0 then l.take (l.length - (-k).toNat) else l.take k.toNat

/-- `retrieveContext(question, index, topK)` from the source: fails when
the index is absent; otherwise embeds the question, scores every vector
by cosine similarity against it, sorts descending by score (stably) and
returns the first `topK` entries.  The embedding provider is the injected
`embed`. -/
noncomputable def retrieveContext (embed : List Char → List ℝ)
    (question : List Char) (index : Option Index) (topK : Int) :
    Except (List Char) (List RetrievalResult) :=
  match index with
  | none => .error "No semantic index loaded.".toList
  | some idx =>
      let questionVector := embed question
      let scored := idx.vectors.enum.map fun p =>
        { score := cosineSimilarity p.2 questionVector
          chunk := idx.chunks.getD p.1 ⟨[], [], []⟩ : RetrievalResult }
      .ok (jsSlice topK (scored.insertionSort scoreDesc))

/-- A feature summary `{name, technologies, files}` consumed by the
diagram generator. -/
structure Feature where
  name : List Char
  technologies : List (List Char)
  files : Nat
deriving DecidableEq

/-- `truncate(text, max)` from the source: texts at most `max` long (and
the empty text) pass through; longer ones are cut at `max` characters and
suffixed with an ellipsis. -/
def truncate (text : List Char) (max : Nat) : List Char :=
  if text.isEmpty || text.length ≤ max then text
  else text.take max ++ "…".toList

/-- `buildDiagramPrompt(question, chunks, features)` from the source. -/
def buildDiagramPrompt (question : List Char) (chunks : List RetrievalResult)
    (features : List Feature) : List Char :=
  let chunkText := List.intercalate dblNl (chunks.enum.map fun p =>
    "Chunk ".toList ++ natChars (p.1 + 1) ++ " (file: ".toList ++ p.2.chunk.path ++
      "):\n".toList ++ truncate p.2.chunk.content 900)
  let featureText := List.intercalate ['\n'] (features.map fun feature =>
    "- ".toList ++ feature.name ++ ": ".toList ++
      (let t := List.intercalate ", ".toList feature.technologies
       if t.isEmpty then "Unknown".toList else t) ++
      " (".toList ++ natChars feature.files ++ " files)".toList)
  "\nYou are an expert software architect. Using the provided repository context chunks and component features,\nrespond to the user's request with a Mermaid or PlantUML diagram description. Always include the diagram\ncode in a fenced block (mermaid preferred) and keep explanations concise.\n\nQuestion: ".toList ++
    question ++ "\n\nComponent summary:\n".toList ++ featureText ++
    "\n\nContext chunks:\n".toList ++ chunkText ++ "\n\nDiagram:\n".toList

/-- `text.indexOf("\x60\x60\x60")`: position of the first fenced code
block marker, if any. -/
def indexOfFence : List Char → Option Nat
  | [] => none
  | c :: rest =>
      if (c :: rest).take 3 = "```".toList then some 0
      else (indexOfFence rest).map (· + 1)

/-- `sanitizeDiagramOutput(text)` from the source: empty text passes
through; otherwise the text from the first fence marker onward, trimmed,
or the whole text trimmed when no marker occurs. -/
def sanitizeDiagramOutput (text : List Char) : List Char :=
  if text.isEmpty then []
  else
    match indexOfFence text with
    | some i => jsTrim (text.drop i)
    | none => jsTrim text

/-- One step of the heuristic fallback: `{id, label, tech}`. -/
structure DStep where
  id : List Char
  label : List Char
  tech : List Char
deriving DecidableEq

/-- `fallbackDiagram(question, chunks, features)` from the source: a
deterministic Mermaid sequence diagram built from at most the first four
features (the `chunks` argument is accepted but never read).  The
placeholder step the source pushes onto `steps` in the empty case is dead
after that point and has no observable effect. -/
def fallbackDiagram (question : List Char) (_chunks : List RetrievalResult)
    (features : List Feature) : List Char :=
  let steps := (features.take 4).enum.map fun p =>
    { id := "F".toList ++ natChars (p.1 + 1)
      label := p.2.name
      tech := (let t := List.intercalate ", ".toList p.2.technologies
               if t.isEmpty then "Mixed".toList else t) : DStep }
  let participants := ["participant U as User".toList] ++
    steps.map fun step =>
      "participant ".toList ++ step.id ++ " as ".toList ++ step.label ++
        "\\n".toList ++ step.tech
  let lines := steps.enum.map fun p =>
    if p.1 = 0 then "U->>".toList ++ p.2.id ++ ": Initiate flow".toList
    else (steps.getD (p.1 - 1) ⟨[], [], []⟩).id ++ "->>".toList ++ p.2.id ++
      ": Pass control".toList
  let participants := if steps.isEmpty then
      participants ++ ["participant F1 as Application".toList]
    else participants
  let lines := if steps.isEmpty then lines ++ ["U->>F1: Interact".toList]
    else lines
  List.intercalate ['\n']
    (["```mermaid".toList, "sequenceDiagram".toList, "    autonumber".toList] ++
      participants.map (fun l => "    ".toList ++ l) ++
      lines.map (fun l => "    ".toList ++ l) ++
      ["```".toList, [], "_Generated via heuristic fallback for request:_".toList,
        question])

/-- The generation result `{prompt, result, model, usedLLM}` (the spec
calls the last field `usedModel`). -/
structure GenerationResult where
  prompt : List Char
  result : List Char
  model : List Char
  usedLLM : Bool

/-- `generateDiagramDescription({question, contextChunks, features})` from
the source.  `gen` is the outcome of the awaited generation-provider call
on the built prompt: `Except.error ()` models any provider failure (load
error, timeout, rejection), and `Except.ok o` carries
`output[0]?.generated_text` (with `none` for a missing entry, which the
`|| ""` in the source turns into the empty text). -/
def generateDiagramDescription (question : List Char)
    (contextChunks : List RetrievalResult) (features : List Feature)
    (gen : Except Unit (Option (List Char))) : GenerationResult :=
  let prompt := buildDiagramPrompt question contextChunks features
  match gen with
  | .ok o =>
      { prompt := prompt
        result := sanitizeDiagramOutput (o.getD [])
        model := "Xenova/phi-2".toList
        usedLLM := true }
  | .error _ =>
      { prompt := prompt
        result := fallbackDiagram question contextChunks features
        model := "heuristic-template".toList
        usedLLM := false }

/-- A sample index used to instantiate hypotheses of retrieval and cache
theorems at concrete inputs. -/
def sampleIndex : Index :=
  { key := "o/r@b".toList
    chunks := [⟨"a.ts::0".toList, "a.ts".toList, "hello".toList⟩]
    vectors := [[1]]
    dims := 1 }

/-- An index with two chunks and two vectors, used to exhibit the
negative-`topK` behaviour. -/
def twoChunkIndex : Index :=
  { key := "o/r@b".toList
    chunks := [⟨"a.ts::0".toList, "a.ts".toList, "alpha".toList⟩,
               ⟨"a.ts::1".toList, "a.ts".toList, "beta".toList⟩]
    vectors := [[1], [1]]
    dims := 1 }

/-- Modelled from the spec's description of sanitization, independently
of the implementation: the position of the first fenced code block
marker is the least index at which the text continues with three
backtick characters. -/
def specFirstFence (text : List Char) : Option Nat :=
  (List.range text.length).find? fun i =>
    decide ((text.drop i).take 3 = "```".toList)

/-- The sanitization exactly as the claim words it: the raw output from
the first fence marker onward (untrimmed), or the trimmed raw text when
no marker exists. -/
def claimSanitize (text : List Char) : List Char :=
  match specFirstFence text with
  | some i => text.drop i
  | none => jsTrim text

/-- The amended sanitization: the text from the first fence marker
onward is additionally trimmed, as is the raw text when no marker
exists. -/
def claimSanitizeTrimmed (text : List Char) : List Char :=
  match specFirstFence text with
  | some i => jsTrim (text.drop i)
  | none => jsTrim text

/-- Modelled from the spec's ordering words ("descending by score; ties
broken by original index order"): among score-and-original-index pairs,
`a` may precede `b` when it scores strictly higher, or scores equally
and carries an index at most `b`'s. -/
def lexRank (a b : RetrievalResult × Nat) : Prop :=
  b.1.score < a.1.score ∨ (a.1.score = b.1.score ∧ a.2 ≤ b.2)

noncomputable instance : DecidableRel lexRank := fun _ _ =>
  Classical.propDecidable _

/-- The decimal value of a digit list, inverse to `natCharsAux`. -/
def charsVal (l : List Char) : Nat :=
  l.foldl (fun a c => 10 * a + (c.toNat - 48)) 0

/-- `dropWhile` is the identity when the head already fails the
predicate. -/
theorem dropWhile_eq_self_of_head {α : Type} (p : α → Bool) (l : List α)
    (h : ∀ c, l.head? = some c → p c = false) : l.dropWhile p = l := by
  cases l with
  | nil => rfl
  | cons a t =>
      rw [List.dropWhile_cons, h a rfl]
      simp

/-- The head surviving a `dropWhile` fails the predicate. -/
theorem head?_dropWhile_false {α : Type} (p : α → Bool) :
    ∀ (l : List α) (c : α), (l.dropWhile p).head? = some c → p c = false := by
  intro l
  induction l with
  | nil => intro c h; simp at h
  | cons a t ih =>
      intro c h
      rw [List.dropWhile_cons] at h
      by_cases hp : p a = true
      · rw [if_pos hp] at h
        exact ih c h
      · rw [if_neg hp] at h
        have : a = c := by simpa using h
        rw [← this]
        exact Bool.not_eq_true _ ▸ (by simpa using hp)

/-- `dropWhile` preserves `Chain'`. -/
theorem chain'_dropWhile {α : Type} {R : α → α → Prop} (p : α → Bool) :
    ∀ (l : List α), List.Chain' R l → List.Chain' R (l.dropWhile p)
  | [], h => h
  | a :: t, h => by
      rw [List.dropWhile_cons]
      split
      · exact chain'_dropWhile p t h.tail
      · exact h

/-- `reverse` preserves `Chain'` for a symmetric relation. -/
theorem chain'_reverse_of_symm {α : Type} {R : α → α → Prop}
    (hsymm : ∀ a b, R a b → R b a) (l : List α) (h : List.Chain' R l) :
    List.Chain' R l.reverse := by
  rw [List.chain'_reverse]
  exact h.imp fun a b hab => hsymm a b hab

/-- Trimming a text whose ends are already non-whitespace is the
identity. -/
theorem jsTrim_eq_self {s : List Char}
    (hh : ∀ c, s.head? = some c → isJsWs c = false)
    (hl : ∀ c, s.getLast? = some c → isJsWs c = false) : jsTrim s = s := by
  unfold jsTrim
  rw [dropWhile_eq_self_of_head _ _ hh]
  rw [dropWhile_eq_self_of_head _ _ fun c hc =>
    hl c (by rwa [List.head?_reverse] at hc)]
  exact List.reverse_reverse s

/-- The first character of a trimmed text is non-whitespace. -/
theorem jsTrim_head (l : List Char) (c : Char)
    (h : (jsTrim l).head? = some c) : isJsWs c = false := by
  unfold jsTrim at h
  rw [List.head?_reverse] at h
  rcases List.dropWhile_suffix (l := (l.dropWhile isJsWs).reverse)
    isJsWs with ⟨t, ht⟩
  have hne : ((l.dropWhile isJsWs).reverse.dropWhile isJsWs) ≠ [] := by
    intro hnil
    rw [hnil] at h
    simp at h
  have h2 : (l.dropWhile isJsWs).reverse.getLast? = some c := by
    rw [← ht, List.getLast?_append_of_ne_nil t hne]
    exact h
  rw [List.getLast?_reverse] at h2
  exact head?_dropWhile_false isJsWs l c h2

/-- The last character of a trimmed text is non-whitespace. -/
theorem jsTrim_last (l : List Char) (c : Char)
    (h : (jsTrim l).getLast? = some c) : isJsWs c = false := by
  unfold jsTrim at h
  rw [List.getLast?_reverse] at h
  exact head?_dropWhile_false isJsWs _ c h

/-- Trimming preserves `Chain'` for a symmetric relation. -/
theorem chain'_jsTrim {R : Char → Char → Prop}
    (hsymm : ∀ a b, R a b → R b a) (l : List Char)
    (h : List.Chain' R l) : List.Chain' R (jsTrim l) := by
  unfold jsTrim
  exact chain'_reverse_of_symm hsymm _
    (chain'_dropWhile _ _ (chain'_reverse_of_symm hsymm _
      (chain'_dropWhile _ _ h)))

/-- Unfolding `List.intercalate` over a two-or-more element list. -/
theorem intercalate_cons_cons {α : Type} (s a b : List α) (t : List (List α)) :
    List.intercalate s (a :: b :: t) = a ++ s ++ List.intercalate s (b :: t) := by
  simp [List.intercalate, List.intersperse]

/-- `List.intercalate` splits off its last element. -/
theorem intercalate_append_one {α : Type} (s last : List α) :
    ∀ front : List (List α), front ≠ [] →
      List.intercalate s (front ++ [last]) =
        List.intercalate s front ++ s ++ last
  | [], h => absurd rfl h
  | [a], _ => by
      rw [List.singleton_append, intercalate_cons_cons s a last []]
      simp [List.intercalate]
  | a :: b :: t, _ => by
      have ih := intercalate_append_one s last (b :: t) (by simp)
      have h1 : (a :: b :: t) ++ [last] = a :: ((b :: t) ++ [last]) := rfl
      have h2 : (b :: t) ++ [last] = b :: (t ++ [last]) := rfl
      rw [h1, h2, intercalate_cons_cons s a b (t ++ [last]), ← h2, ih,
        intercalate_cons_cons s a b t]
      simp [List.append_assoc]

/-- Any newline-joined list whose last element is `q` (preceded by three
fixed trailer lines) ends with a newline followed by `q`. -/
theorem intercalate_trailer {α : Type} (q t1 t2 t3 : List α) (s : List α)
    (A B C : List (List α)) :
    ∃ pre, List.intercalate s (A ++ B ++ C ++ [t1, t2, t3, q]) =
      pre ++ s ++ q := by
  have h4 : ([t1, t2, t3, q] : List (List α)) = [t1, t2, t3] ++ [q] := rfl
  rw [h4, ← List.append_assoc, intercalate_append_one _ _ _ (by simp)]
  exact ⟨_, rfl⟩

/-- `notNN` is symmetric. -/
theorem notNN_symm (a b : Char) (h : notNN a b) : notNN b a :=
  fun hc => h ⟨hc.2, hc.1⟩

/-- One step of `splitRun`: a newline only bumps the pending count. -/
theorem splitRun_step_nl (rest cur : List Char) (p : Nat) :
    splitRun ('\n' :: rest) cur p = splitRun rest cur (p + 1) := by
  conv_lhs => unfold splitRun
  rw [if_pos rfl]

/-- One step of `splitRun`: a non-newline after fewer than two pending
newlines extends the current section. -/
theorem splitRun_step_push {c : Char} (rest cur : List Char) (p : Nat)
    (hc : ¬c = '\n') (hp : ¬2 ≤ p) :
    splitRun (c :: rest) cur p =
      splitRun rest (c :: (List.replicate p '\n' ++ cur)) 0 := by
  conv_lhs => unfold splitRun
  rw [if_neg hc, if_neg hp]

/-- One step of `splitRun`: a non-newline after a blank-line run closes
the current section. -/
theorem splitRun_step_close {c : Char} (rest cur : List Char) (p : Nat)
    (hc : ¬c = '\n') (hp : 2 ≤ p) :
    splitRun (c :: rest) cur p = cur.reverse :: splitRun rest [c] 0 := by
  conv_lhs => unfold splitRun
  rw [if_neg hc, if_pos hp]

/-- End of input with fewer than two pending newlines. -/
theorem splitRun_nil_small (cur : List Char) (p : Nat) (hp : ¬2 ≤ p) :
    splitRun [] cur p = [(List.replicate p '\n' ++ cur).reverse] := by
  conv_lhs => unfold splitRun
  rw [if_neg hp]

/-- End of input after a blank-line run. -/
theorem splitRun_nil_big (cur : List Char) (p : Nat) (hp : 2 ≤ p) :
    splitRun [] cur p = [cur.reverse, []] := by
  conv_lhs => unfold splitRun
  rw [if_pos hp]

/-- Every section the splitter emits has no two adjacent newlines (the
accumulator never holds adjacent newlines and never starts with one). -/
theorem splitRun_chain' :
    ∀ (cs cur : List Char) (p : Nat), List.Chain' notNN cur →
      cur.head? ≠ some '\n' →
      ∀ out ∈ splitRun cs cur p, List.Chain' notNN out
  | [], cur, p, hc, hh, out, hout => by
      unfold splitRun at hout
      split at hout
      · rcases (by simpa using hout : out = cur.reverse ∨ out = []) with
          h | h
        · rw [h]
          exact chain'_reverse_of_symm notNN_symm cur hc
        · rw [h]
          exact List.chain'_nil
      · have hp : p = 0 ∨ p = 1 := by omega
        have hout' : out = (List.replicate p '\n' ++ cur).reverse := by
          simpa using hout

        rcases hp with h0 | h1
        · rw [hout', h0]
          simpa using chain'_reverse_of_symm notNN_symm cur hc
        · rw [hout', h1]
          refine chain'_reverse_of_symm notNN_symm _ ?_
          show List.Chain' notNN ('\n' :: cur)
          rw [List.chain'_cons']
          exact ⟨fun y hy hcontra =>
            hh ((Option.mem_def.mp hy).trans (by rw [hcontra.2])), hc⟩
  | c :: rest, cur, p, hc, hh, out, hout => by
      unfold splitRun at hout
      by_cases hnl : c = '\n'
      · rw [if_pos hnl] at hout
        exact splitRun_chain' rest cur (p + 1) hc hh out hout
      · rw [if_neg hnl] at hout
        by_cases h2 : 2 ≤ p
        · rw [if_pos h2] at hout
          rcases (by simpa using hout :
              out = cur.reverse ∨ out ∈ splitRun rest [c] 0) with h | h
          · rw [h]
            exact chain'_reverse_of_symm notNN_symm cur hc
          · exact splitRun_chain' rest [c] 0 (List.chain'_singleton c)
              (by simpa using hnl) out h
        · rw [if_neg h2] at hout
          have hp : p = 0 ∨ p = 1 := by omega
          rcases hp with h0 | h1
          · subst h0
            refine splitRun_chain' rest (c :: cur) 0 ?_ (by simpa using hnl)
              out (by simpa using hout)
            rw [List.chain'_cons']
            exact ⟨fun y _ hcontra => hnl hcontra.1, hc⟩
          · subst h1
            refine splitRun_chain' rest (c :: '\n' :: cur) 0 ?_
              (by simpa using hnl) out (by simpa using hout)
            rw [List.chain'_cons', List.chain'_cons']
            refine ⟨fun y _ hcontra => hnl hcontra.1,
              fun y hy hcontra =>
                hh ((Option.mem_def.mp hy).trans (by rw [hcontra.2])), hc⟩

/-- Consuming a section with no blank line and no trailing newline never
closes a section: the characters accumulate onto `cur`. -/
theorem splitRun_consume :
    ∀ (n : Nat) (s : List Char), s.length ≤ n → List.Chain' notNN s →
      s.getLast? ≠ some '\n' →
      ∀ (cur t : List Char),
        splitRun (s ++ t) cur 0 = splitRun t (s.reverse ++ cur) 0 := by
  intro n
  induction n with
  | zero =>
      intro s hlen _ _ cur t
      have hs : s = [] := List.eq_nil_of_length_eq_zero (by omega)
      subst hs
      simp
  | succ n ih =>
      intro s hlen hchain hlast cur t
      match s with
      | [] => simp
      | [c] =>
          have hc : ¬c = '\n' := fun h => hlast (by rw [h]; rfl)
          show splitRun (c :: t) cur 0 = _
          rw [splitRun_step_push t cur 0 hc (by omega)]
          congr 1
      | c1 :: c2 :: s' =>
          have hlast' : (c2 :: s').getLast? ≠ some '\n' := by
            rwa [List.getLast?_cons_cons] at hlast
          by_cases h1 : c1 = '\n'
          · subst h1
            have hc2 : ¬c2 = '\n' := by
              intro h
              exact (List.chain'_cons'.mp hchain).1 c2 rfl ⟨rfl, h⟩
            have hlast'' : s'.getLast? ≠ some '\n' := by
              cases s' with
              | nil => simp
              | cons b bt => rwa [List.getLast?_cons_cons] at hlast'
            have hlen' : s'.length ≤ n := by
              simp only [List.length_cons] at hlen
              omega
            show splitRun ('\n' :: (c2 :: s' ++ t)) cur 0 = _
            rw [splitRun_step_nl (c2 :: s' ++ t) cur 0]
            show splitRun (c2 :: (s' ++ t)) cur 1 = _
            rw [splitRun_step_push (s' ++ t) cur 1 hc2 (by omega),
              ih s' hlen'
                ((List.chain'_cons'.mp
                  ((List.chain'_cons'.mp hchain).2)).2) hlast'' _ t]
            congr 1
            simp
          · have hlen' : (c2 :: s').length ≤ n := by
              simp only [List.length_cons] at hlen ⊢
              omega
            show splitRun (c1 :: (c2 :: s' ++ t)) cur 0 = _
            rw [splitRun_step_push (c2 :: s' ++ t) cur 0 h1 (by omega),
              ih (c2 :: s') hlen' (List.chain'_cons'.mp hchain).2 hlast' _ t]
            congr 1
            simp

/-- Crossing a blank-line separator closes the accumulated section. -/
theorem splitRun_boundary (cur r : List Char)
    (hr : r = [] ∨ r.head? ≠ some '\n') :
    splitRun ('\n' :: '\n' :: r) cur 0 = cur.reverse :: splitRun r [] 0 := by
  rcases r with _ | ⟨c, r'⟩
  · rfl
  · have hc : ¬c = '\n' := by
      rcases hr with h | h
      · cases h
      · intro hcc
        exact h (by simp [hcc])
    rw [splitRun_step_nl ('\n' :: c :: r') cur 0]
    show splitRun ('\n' :: (c :: r')) cur 1 = _
    rw [splitRun_step_nl (c :: r') cur 1]
    show splitRun (c :: r') cur 2 = _
    rw [splitRun_step_close r' cur 2 hc (le_refl 2),
      splitRun_step_push r' [] 0 hc (by omega)]
    simp

/-- The head of an intercalation is the head of its first part. -/
theorem intercalate_head? (s2 : List Char) (rest : List (List Char))
    (h2 : s2 ≠ []) :
    (List.intercalate dblNl (s2 :: rest)).head? = s2.head? := by
  cases rest with
  | nil => simp [List.intercalate]
  | cons b t =>
      rw [intercalate_cons_cons,
        List.head?_append_of_ne_nil (s2 ++ dblNl) (by simp [h2]),
        List.head?_append_of_ne_nil s2 h2]

/-- An intercalation of a non-empty first part is non-empty. -/
theorem intercalate_ne_nil (s2 : List Char) (rest : List (List Char))
    (h2 : s2 ≠ []) : List.intercalate dblNl (s2 :: rest) ≠ [] := by
  intro h
  have := intercalate_head? s2 rest h2
  rw [h] at this
  cases s2 with
  | nil => exact h2 rfl
  | cons a t => simp at this

/-- The last element of an intercalation is the last element of one of
its parts. -/
theorem intercalate_getLast? :
    ∀ (parts : List (List Char)), parts ≠ [] → (∀ s ∈ parts, s ≠ []) →
      ∃ sl ∈ parts,
        (List.intercalate dblNl parts).getLast? = sl.getLast?
  | [], h, _ => absurd rfl h
  | [s], _, _ => ⟨s, by simp, by simp [List.intercalate]⟩
  | s :: s2 :: rest, _, hne => by
      rcases intercalate_getLast? (s2 :: rest) (by simp)
          (fun x hx => hne x (List.mem_cons_of_mem s hx)) with ⟨sl, hm, he⟩
      refine ⟨sl, List.mem_cons_of_mem s hm, ?_⟩
      rw [intercalate_cons_cons,
        List.getLast?_append_of_ne_nil (s ++ dblNl)
          (intercalate_ne_nil s2 rest (hne s2 (by simp)))]
      exact he

/-- The whitespace set contains the newline. -/
theorem isJsWs_newline : isJsWs '\n' = true := by decide

/-- A good section does not end with a newline. -/
theorem GoodSection.last_ne_nl {s : List Char} (h : GoodSection s) :
    s.getLast? ≠ some '\n' := fun hc => by
  have := h.2.2.2 '\n' hc
  rw [isJsWs_newline] at this
  cases this

/-- A good section does not start with a newline. -/
theorem GoodSection.head_ne_nl {s : List Char} (h : GoodSection s) :
    s.head? ≠ some '\n' := fun hc => by
  have := h.2.2.1 '\n' hc
  rw [isJsWs_newline] at this
  cases this

/-- Splitting the blank-line join of good sections recovers exactly the
sections. -/
theorem splitRun_intercalate :
    ∀ parts : List (List Char), parts ≠ [] →
      (∀ s ∈ parts, GoodSection s) →
      splitRun (List.intercalate dblNl parts) [] 0 = parts
  | [], h, _ => absurd rfl h
  | [s], _, hg => by
      have hgood := hg s (by simp)
      have h1 : List.intercalate dblNl [s] = s := by simp [List.intercalate]
      rw [h1]
      have h2 : splitRun (s ++ []) [] 0 = splitRun [] (s.reverse ++ []) 0 :=
        splitRun_consume s.length s le_rfl hgood.2.1 hgood.last_ne_nl [] []
      rw [List.append_nil] at h2
      rw [h2, splitRun_nil_small _ 0 (by omega)]
      simp
  | s :: s2 :: rest, _, hg => by
      have hgood := hg s (by simp)
      have hg2 : ∀ x ∈ s2 :: rest, GoodSection x :=
        fun x hx => hg x (List.mem_cons_of_mem s hx)
      have hlast := hgood.last_ne_nl
      have hheadic : (List.intercalate dblNl (s2 :: rest)).head? ≠
          some '\n' := by
        rw [intercalate_head? s2 rest (hg2 s2 (by simp)).1]
        exact (hg2 s2 (by simp)).head_ne_nl
      rw [intercalate_cons_cons]
      have hshape : s ++ dblNl ++ List.intercalate dblNl (s2 :: rest) =
          s ++ ('\n' :: '\n' :: List.intercalate dblNl (s2 :: rest)) := by
        rw [List.append_assoc]
        rfl
      rw [hshape,
        splitRun_consume s.length s le_rfl hgood.2.1 hlast [] _,
        List.append_nil, splitRun_boundary _ _ (Or.inr hheadic),
        List.reverse_reverse,
        splitRun_intercalate (s2 :: rest) (by simp) hg2]

/-- Every section the chunker computes is good: non-empty, free of blank
lines, trimmed at both ends. -/
theorem sections_good (content : List Char) :
    ∀ s ∈ sectionsOf content, GoodSection s := by
  intro s hs
  unfold sectionsOf at hs
  rw [List.mem_filter] at hs
  rcases List.mem_map.mp hs.1 with ⟨raw, hraw, hrfl⟩
  subst hrfl
  refine ⟨by simpa using hs.2, ?_, jsTrim_head raw, jsTrim_last raw⟩
  exact chain'_jsTrim notNN_symm raw
    (splitRun_chain' content [] 0 List.chain'_nil (by simp) raw hraw)

/-- `bufOf` distributes over append. -/
theorem bufOf_append (l1 l2 : List (List Char)) :
    bufOf (l1 ++ l2) = bufOf l1 ++ bufOf l2 := by
  simp [bufOf]

/-- The buffer of a single section. -/
theorem bufOf_singleton (s : List Char) : bufOf [s] = s ++ dblNl := by
  simp [bufOf]

/-- The buffer text is the blank-line join plus a trailing separator. -/
theorem bufOf_eq_intercalate :
    ∀ parts : List (List Char), parts ≠ [] →
      bufOf parts = List.intercalate dblNl parts ++ dblNl
  | [], h => absurd rfl h
  | [s], _ => by simp [bufOf, List.intercalate]
  | s :: s2 :: rest, _ => by
      have ih := bufOf_eq_intercalate (s2 :: rest) (by simp)
      have h1 : bufOf (s :: s2 :: rest) = (s ++ dblNl) ++ bufOf (s2 :: rest) := by
        simp [bufOf]
      rw [h1, ih, intercalate_cons_cons]
      simp [List.append_assoc]

/-- Trimming the buffer yields exactly the blank-line join of its
sections. -/
theorem jsTrim_bufOf (parts : List (List Char))
    (hg : ∀ s ∈ parts, GoodSection s) :
    jsTrim (bufOf parts) = List.intercalate dblNl parts := by
  cases parts with
  | nil => rfl
  | cons s rest =>
      have hgs := hg s (by simp)
      rw [bufOf_eq_intercalate (s :: rest) (by simp)]
      unfold jsTrim
      have hfront : List.dropWhile isJsWs
          (List.intercalate dblNl (s :: rest) ++ dblNl) =
          List.intercalate dblNl (s :: rest) ++ dblNl :=
        dropWhile_eq_self_of_head _ _ (fun c hc => by
          rw [List.head?_append_of_ne_nil _
            (intercalate_ne_nil s rest hgs.1)] at hc
          rw [intercalate_head? s rest hgs.1] at hc
          exact hgs.2.2.1 c hc)
      rw [hfront, List.reverse_append]
      have hrev : dblNl.reverse = ['\n', '\n'] := rfl
      rw [hrev]
      rcases intercalate_getLast? (s :: rest) (by simp)
          (fun x hx => (hg x hx).1) with ⟨sl, hm, he⟩
      have hic : (List.intercalate dblNl (s :: rest)).reverse.head? ≠
          some '\n' := by
        rw [List.head?_reverse, he]
        exact (hg sl hm).last_ne_nl
      show (List.dropWhile isJsWs ('\n' :: '\n' ::
        (List.intercalate dblNl (s :: rest)).reverse)).reverse = _
      rw [List.dropWhile_cons, if_pos isJsWs_newline,
        List.dropWhile_cons, if_pos isJsWs_newline,
        dropWhile_eq_self_of_head _ _ (fun c hc => by
          by_cases hcnl : c = '\n'
          · exact absurd (hcnl ▸ hc) hic
          · rw [List.head?_reverse] at hc
            rcases he ▸ hc with hc'
            exact (hg sl hm).2.2.2 c hc')]
      exact List.reverse_reverse _

/-- Re-splitting the blank-line join of good sections yields them back:
one chunk's content re-splits into exactly its constituent sections. -/
theorem sectionsOf_intercalate (parts : List (List Char))
    (hg : ∀ s ∈ parts, GoodSection s) :
    sectionsOf (List.intercalate dblNl parts) = parts := by
  cases parts with
  | nil => rfl
  | cons s rest =>
      unfold sectionsOf
      rw [splitRun_intercalate (s :: rest) (by simp) hg]
      rw [List.map_congr_left
        (fun x hx => jsTrim_eq_self (hg x hx).2.2.1 (hg x hx).2.2.2)]
      rw [List.map_id']
      exact List.filter_eq_self.mpr fun x hx => by
        simpa using (hg x hx).1

/-- Finalizing a state whose buffer holds the sections `bs`: the chunks'
sections are the already-flushed chunks' sections followed by `bs`. -/
theorem finalize_flat (cs bs : List (List Char))
    (hg : ∀ s ∈ bs, GoodSection s) :
    ((finalizeTexts (cs, bufOf bs)).map sectionsOf).flatten =
      (cs.map sectionsOf).flatten ++ bs := by
  unfold finalizeTexts
  show ((if !(jsTrim (bufOf bs)).isEmpty then cs ++ [jsTrim (bufOf bs)]
    else cs).map sectionsOf).flatten = _
  rw [jsTrim_bufOf bs hg]
  cases bs with
  | nil => simp [List.intercalate]
  | cons s rest =>
      have hne := intercalate_ne_nil s rest (hg s (by simp)).1
      rw [if_pos (by simpa using hne)]
      rw [List.map_append, List.flatten_append]
      simp [sectionsOf_intercalate (s :: rest) hg]

/-- Goodness is preserved when extending the buffer list. -/
theorem good_append_one {bs : List (List Char)} {s : List Char}
    (hbs : ∀ x ∈ bs, GoodSection x) (hs : GoodSection s) :
    ∀ x ∈ bs ++ [s], GoodSection x := by
  intro x hx
  rcases List.mem_append.mp hx with h | h
  · exact hbs x h
  · rw [List.mem_singleton.mp h]
    exact hs

/-- The accumulation loop preserves and reconstructs the section
sequence: however it buffers and flushes, the concatenation of the
finalized chunks' sections is the flushed chunks' sections, the buffered
sections, and the remaining sections, in order. -/
theorem fold_reconstruct :
    ∀ (rest cs bs : List (List Char)),
      (∀ s ∈ bs, GoodSection s) → (∀ s ∈ rest, GoodSection s) →
      ((finalizeTexts (rest.foldl chunkStep (cs, bufOf bs))).map
        sectionsOf).flatten = (cs.map sectionsOf).flatten ++ bs ++ rest
  | [], cs, bs, hbs, _ => by
      rw [List.foldl_nil, finalize_flat cs bs hbs, List.append_nil]
  | s :: rest', cs, bs, hbs, hrest => by
      have hs : GoodSection s := hrest s (by simp)
      have hrest' : ∀ x ∈ rest', GoodSection x :=
        fun x hx => hrest x (List.mem_cons_of_mem s hx)
      rw [List.foldl_cons]
      show ((finalizeTexts (rest'.foldl chunkStep
        (if (bufOf bs).length + s.length < MAX_CHUNK_TOKENS then
          (cs, bufOf bs ++ s ++ dblNl)
        else (cs ++ [jsTrim (bufOf bs)], s ++ dblNl)))).map
          sectionsOf).flatten = _
      by_cases hfit : (bufOf bs).length + s.length < MAX_CHUNK_TOKENS
      · rw [if_pos hfit]
        have h1 : bufOf bs ++ s ++ dblNl = bufOf (bs ++ [s]) := by
          rw [bufOf_append, bufOf_singleton, List.append_assoc]
        rw [h1, fold_reconstruct rest' cs (bs ++ [s])
          (good_append_one hbs hs) hrest']
        simp [List.append_assoc]
      · rw [if_neg hfit]
        have h1 : s ++ dblNl = bufOf [s] := (bufOf_singleton s).symm
        rw [h1, fold_reconstruct rest' (cs ++ [jsTrim (bufOf bs)]) [s]
          (fun x hx => by rw [List.mem_singleton.mp hx]; exact hs) hrest']
        rw [List.map_append, List.flatten_append]
        have h2 : (([jsTrim (bufOf bs)] : List (List Char)).map
            sectionsOf).flatten = bs := by
          rw [jsTrim_bufOf bs hbs]
          simp [sectionsOf_intercalate bs hbs]
        rw [h2]
        simp [List.append_assoc]

/-- A flushed buffer is either within the size budget or a single
original section. -/
theorem flushed_bound (S : List (List Char)) (bs : List (List Char))
    (hbs : ∀ s ∈ bs, GoodSection s) (hbsS : ∀ s ∈ bs, s ∈ S)
    (hinv : bs = [] ∨ (∃ s0, bs = [s0]) ∨
      (bufOf bs).length ≤ MAX_CHUNK_TOKENS + 1) :
    (jsTrim (bufOf bs)).length ≤ MAX_CHUNK_TOKENS ∨
      jsTrim (bufOf bs) ∈ S := by
  rcases hinv with h | ⟨s0, h⟩ | h
  · subst h
    left
    simp [jsTrim, bufOf, MAX_CHUNK_TOKENS]
  · subst h
    right
    rw [jsTrim_bufOf [s0] hbs]
    have h1 : List.intercalate dblNl [s0] = s0 := by simp [List.intercalate]
    rw [h1]
    exact hbsS s0 (by simp)
  · cases bs with
    | nil =>
        left
        simp [jsTrim, bufOf, MAX_CHUNK_TOKENS]
    | cons b bt =>
        left
        rw [jsTrim_bufOf (b :: bt) hbs]
        have h2 := bufOf_eq_intercalate (b :: bt) (by simp)
        have h3 : (bufOf (b :: bt)).length =
            (List.intercalate dblNl (b :: bt)).length + 2 := by
          rw [h2]
          simp [dblNl]
        omega

/-- Every chunk the accumulation loop finalizes is within the size
budget or is a single original section. -/
theorem fold_bound (S : List (List Char)) :
    ∀ (rest cs bs : List (List Char)),
      (∀ s ∈ bs, GoodSection s) → (∀ s ∈ rest, GoodSection s) →
      (∀ s ∈ bs, s ∈ S) → (∀ s ∈ rest, s ∈ S) →
      (bs = [] ∨ (∃ s0, bs = [s0]) ∨
        (bufOf bs).length ≤ MAX_CHUNK_TOKENS + 1) →
      (∀ c ∈ cs, c.length ≤ MAX_CHUNK_TOKENS ∨ c ∈ S) →
      ∀ c ∈ finalizeTexts (rest.foldl chunkStep (cs, bufOf bs)),
        c.length ≤ MAX_CHUNK_TOKENS ∨ c ∈ S
  | [], cs, bs, hbs, _, hbsS, _, hinv, hcs => by
      intro c hc
      rw [List.foldl_nil] at hc
      unfold finalizeTexts at hc
      split at hc
      · rcases List.mem_append.mp hc with h | h
        · exact hcs c h
        · rw [List.mem_singleton.mp h]
          exact flushed_bound S bs hbs hbsS hinv
      · exact hcs c hc
  | s :: rest', cs, bs, hbs, hrest, hbsS, hrestS, hinv, hcs => by
      have hs : GoodSection s := hrest s (by simp)
      have hsS : s ∈ S := hrestS s (by simp)
      have hrest' : ∀ x ∈ rest', GoodSection x :=
        fun x hx => hrest x (List.mem_cons_of_mem s hx)
      have hrestS' : ∀ x ∈ rest', x ∈ S :=
        fun x hx => hrestS x (List.mem_cons_of_mem s hx)
      intro c hc
      rw [List.foldl_cons] at hc
      by_cases hfit : (bufOf bs).length + s.length < MAX_CHUNK_TOKENS
      · have hstep : chunkStep (cs, bufOf bs) s = (cs, bufOf (bs ++ [s])) := by
          unfold chunkStep
          rw [if_pos hfit, bufOf_append, bufOf_singleton, List.append_assoc]
        rw [hstep] at hc
        refine fold_bound S rest' cs (bs ++ [s]) (good_append_one hbs hs)
          hrest' ?_ hrestS' ?_ hcs c hc
        · intro x hx
          rcases List.mem_append.mp hx with h | h
          · exact hbsS x h
          · rw [List.mem_singleton.mp h]
            exact hsS
        · right
          right
          rw [bufOf_append, bufOf_singleton, List.length_append,
            List.length_append]
          simp only [dblNl, List.length_cons, List.length_nil]
          omega
      · have hstep : chunkStep (cs, bufOf bs) s =
            (cs ++ [jsTrim (bufOf bs)], bufOf [s]) := by
          unfold chunkStep
          rw [if_neg hfit, bufOf_singleton]
        rw [hstep] at hc
        refine fold_bound S rest' (cs ++ [jsTrim (bufOf bs)]) [s]
          (fun x hx => by rw [List.mem_singleton.mp hx]; exact hs) hrest'
          (fun x hx => by rw [List.mem_singleton.mp hx]; exact hsS) hrestS'
          (Or.inr (Or.inl ⟨s, rfl⟩)) ?_ c hc
        intro x hx
        rcases List.mem_append.mp hx with h | h
        · exact hcs x h
        · rw [List.mem_singleton.mp h]
          exact flushed_bound S bs hbs hbsS hinv

/-- A pair drawn from a list zipped with itself has equal components. -/
theorem fst_eq_snd_of_mem_zip_self {α : Type} {p : α × α} :
    ∀ {l : List α}, p ∈ l.zip l → p.1 = p.2
  | [], h => absurd h (List.not_mem_nil p)
  | a :: t, h => by
      rw [List.zip_cons_cons, List.mem_cons] at h
      rcases h with h | h
      · rw [h]
      · exact fst_eq_snd_of_mem_zip_self h

/-- C5: saving an index that has a key and loading that key back yields
an index with identical key, dims and chunks, and vectors numerically
equal to the originals within a 1e-6 tolerance (they are in fact equal in
the real-number model, where the `Array`/`Float32Array` conversions are
exact). -/
theorem indexCache_roundTrip (st : Storage) (index : Index)
    (h : index.key ≠ []) :
    ∃ index', loadIndex (saveIndex st true index) index.key = some index' ∧
      index'.key = index.key ∧ index'.dims = index.dims ∧
      index'.chunks = index.chunks ∧
      index'.vectors.length = index.vectors.length ∧
      ∀ p ∈ index'.vectors.zip index.vectors, p.1.length = p.2.length ∧
        ∀ q ∈ p.1.zip p.2, |q.1 - q.2| ≤ 1 / 1000000 := by
  refine ⟨index, ?_, rfl, rfl, rfl, rfl, ?_⟩
  · have hk : index.key.isEmpty = false := by
      cases hk : index.key.isEmpty
      · rfl
      · exact absurd (List.isEmpty_iff.mp hk) h
    unfold loadIndex saveIndex
    simp [hk]
  · intro p hp
    have h1 := fst_eq_snd_of_mem_zip_self hp
    refine ⟨by rw [h1], ?_⟩
    intro q hq
    rw [h1] at hq
    have h2 := fst_eq_snd_of_mem_zip_self hq
    rw [h2, sub_self, abs_zero]
    norm_num

/-- C5 witness: the round trip at a concrete store and index. -/
theorem indexCache_roundTrip_witness :
    sampleIndex.key ≠ [] ∧
    (∃ index', loadIndex (saveIndex (fun _ => none) true sampleIndex)
        sampleIndex.key = some index' ∧
      index'.key = sampleIndex.key ∧ index'.dims = sampleIndex.dims ∧
      index'.chunks = sampleIndex.chunks ∧
      index'.vectors.length = sampleIndex.vectors.length ∧
      ∀ p ∈ index'.vectors.zip sampleIndex.vectors, p.1.length = p.2.length ∧
        ∀ q ∈ p.1.zip p.2, |q.1 - q.2| ≤ 1 / 1000000) :=
  ⟨by decide, indexCache_roundTrip (fun _ => none) sampleIndex (by decide)⟩

/-- C8: the index cache is best-effort and non-throwing: a storage
failure during save is caught and leaves the store (and trivially the
in-memory index, a pure value here) unchanged, and a load from a missing
key or from a corrupt payload returns `none` rather than propagating an
error (`loadIndex` is a total function into `Option`). -/
theorem indexCache_bestEffort (st : Storage) (index : Index) (key : List Char) :
    saveIndex st false index = st ∧
    (st (storageKey key) = none → loadIndex st key = none) ∧
    (st (storageKey key) = some none → loadIndex st key = none) := by
  refine ⟨?_, ?_, ?_⟩
  · unfold saveIndex
    split
    · rfl
    · rfl
  · intro h
    unfold loadIndex
    rw [h]
  · intro h
    unfold loadIndex
    rw [h]

/-- C8 witness: the cache contract at concrete stores — an empty store
(missing key) and a store holding a corrupt payload. -/
theorem indexCache_bestEffort_witness :
    saveIndex (fun _ => none) false sampleIndex = (fun _ => none) ∧
    loadIndex (fun _ => none) "k".toList = none ∧
    loadIndex (fun _ => some none) "k".toList = none :=
  ⟨(indexCache_bestEffort (fun _ => none) sampleIndex "k".toList).1,
   (indexCache_bestEffort (fun _ => none) sampleIndex "k".toList).2.1 rfl,
   (indexCache_bestEffort (fun _ => some none) sampleIndex "k".toList).2.2 rfl⟩

/-- C10: retrieving against a present index that has no chunks and no
vectors returns the empty result list (not the absent-index error, which
only an absent index produces). -/
theorem retrieve_emptyIndex_ok (embed : List Char → List ℝ)
    (question key : List Char) (dims : Nat) (topK : Int) :
    retrieveContext embed question (some ⟨key, [], [], dims⟩) topK = .ok [] ∧
    retrieveContext embed question none topK =
      .error "No semantic index loaded.".toList := by
  constructor
  · unfold retrieveContext
    simp [jsSlice, List.insertionSort]
  · rfl

/-- C4 (code bug): on a single section of exactly `MAX_CHUNK_TOKENS`
characters, the first iteration of the accumulation loop takes the flush
branch with an empty buffer and pushes `"".trim()`, so the code emits an
empty chunk *in addition to* the oversized one — contradicting both the
"one oversized chunk" and the "non-empty content" parts of the claim
(the final flush is guarded by `if (buffer.trim())`, showing empty
flushes were not intended). -/
theorem chunker_oversized_emits_empty_chunk :
    chunkSourceFile (List.replicate 260 'a') "p".toList =
      [⟨"p::0".toList, "p".toList, []⟩,
       ⟨"p::1".toList, "p".toList, List.replicate 260 'a'⟩] ∧
    ¬ ∀ c ∈ chunkSourceFile (List.replicate 260 'a') "p".toList,
        c.content ≠ [] := by
  refine ⟨by decide, fun h => ?_⟩
  exact h ⟨"p::0".toList, "p".toList, []⟩ (by decide) rfl

/-- C7: the index builder processes at most the first
`MAX_FILES_FOR_INDEX` files (excess files are silently dropped), a fetch
failure skips exactly that file while the build still returns an index,
and `dims` is the first vector's length, or zero when no vectors were
produced. -/
theorem buildRagIndex_limits_skip_dims (owner repo branch : List Char)
    (files : List FileRef) (fetch : List Char → Option (List Char))
    (embed : List Char → List ℝ) (st : Storage) (ok : Bool) :
    buildRagIndex owner repo branch files fetch embed st ok =
      buildRagIndex owner repo branch (files.take MAX_FILES_FOR_INDEX)
        fetch embed st ok ∧
    (∀ pre post (f : FileRef), files = pre ++ f :: post →
      files.length ≤ MAX_FILES_FOR_INDEX → fetch f.path = none →
      buildRagIndex owner repo branch files fetch embed st ok =
        buildRagIndex owner repo branch (pre ++ post) fetch embed st ok) ∧
    ((buildRagIndex owner repo branch files fetch embed st ok).1.vectors = [] →
      (buildRagIndex owner repo branch files fetch embed st ok).1.dims = 0) ∧
    (∀ v vs,
      (buildRagIndex owner repo branch files fetch embed st ok).1.vectors =
        v :: vs →
      (buildRagIndex owner repo branch files fetch embed st ok).1.dims =
        v.length) := by
  refine ⟨?_, ?_, ?_, ?_⟩
  · simp [buildRagIndex, List.take_take]
  · intro pre post f hsplit hlen hfetch
    subst hsplit
    have hlen' : (pre ++ post).length ≤ MAX_FILES_FOR_INDEX := by
      simp at hlen ⊢
      omega
    simp [buildRagIndex, List.take_of_length_le hlen, List.take_of_length_le hlen',
      hfetch]
  · intro h
    simp only [buildRagIndex] at h ⊢
    rw [h]
    rfl
  · intro v vs h
    simp only [buildRagIndex] at h ⊢
    rw [h]
    rfl

/-- C7 witness: the builder contract at concrete inputs — a build whose
single file fails to fetch (skipped, and producing no vectors, so
`dims = 0`), and a build whose single file yields one chunk and a
one-dimensional vector, so `dims = 1`. -/
theorem buildRagIndex_limits_skip_dims_witness :
    (buildRagIndex "o".toList "r".toList "b".toList [⟨"a".toList⟩]
        (fun _ => none) (fun _ => [1]) (fun _ => none) true =
      buildRagIndex "o".toList "r".toList "b".toList []
        (fun _ => none) (fun _ => [1]) (fun _ => none) true) ∧
    ((buildRagIndex "o".toList "r".toList "b".toList [⟨"a".toList⟩]
        (fun _ => none) (fun _ => [1]) (fun _ => none) true).1.dims = 0) ∧
    ((buildRagIndex "o".toList "r".toList "b".toList [⟨"a".toList⟩]
        (fun _ => some "hello".toList) (fun _ => [1]) (fun _ => none)
        true).1.dims = 1) :=
  ⟨(buildRagIndex_limits_skip_dims "o".toList "r".toList "b".toList
      [⟨"a".toList⟩] (fun _ => none) (fun _ => [1]) (fun _ => none)
      true).2.1 [] [] ⟨"a".toList⟩ rfl (by decide) rfl,
   (buildRagIndex_limits_skip_dims "o".toList "r".toList "b".toList
      [⟨"a".toList⟩] (fun _ => none) (fun _ => [1]) (fun _ => none)
      true).2.2.1 rfl,
   (buildRagIndex_limits_skip_dims "o".toList "r".toList "b".toList
      [⟨"a".toList⟩] (fun _ => some "hello".toList) (fun _ => [1])
      (fun _ => none) true).2.2.2 [1] [] rfl⟩

/-- C9: the heuristic diagram builder is pure and deterministic in
`(question, features)` — its output does not depend on the context chunks
it also receives — it uses at most the first four features, on an empty
feature list it emits the single placeholder `Application` participant
diagram, and its output always ends with the original question as the
trailing annotation line. -/
theorem fallbackDiagram_pure_spec (question : List Char)
    (chunks1 chunks2 : List RetrievalResult) (features : List Feature) :
    fallbackDiagram question chunks1 features =
      fallbackDiagram question chunks2 features ∧
    fallbackDiagram question chunks1 features =
      fallbackDiagram question chunks1 (features.take 4) ∧
    fallbackDiagram question chunks1 [] =
      ("```mermaid\nsequenceDiagram\n    autonumber\n    participant U as User\n    participant F1 as Application\n    U->>F1: Interact\n```\n\n_Generated via heuristic fallback for request:_\n".toList ++
        question) ∧
    (∃ pre, fallbackDiagram question chunks1 features =
      pre ++ ['\n'] ++ question) := by
  refine ⟨rfl, by simp [fallbackDiagram, List.take_take], ?_, ?_⟩
  · show List.intercalate ['\n']
        (["```mermaid".toList, "sequenceDiagram".toList,
          "    autonumber".toList, "    participant U as User".toList,
          "    participant F1 as Application".toList,
          "    U->>F1: Interact".toList, "```".toList, [],
          "_Generated via heuristic fallback for request:_".toList] ++
          [question]) = _
    rw [intercalate_append_one _ _ _ (by simp)]
    have hfront :
        ("```mermaid\nsequenceDiagram\n    autonumber\n    participant U as User\n    participant F1 as Application\n    U->>F1: Interact\n```\n\n_Generated via heuristic fallback for request:_\n".toList :
            List Char) =
          List.intercalate ['\n']
            ["```mermaid".toList, "sequenceDiagram".toList,
              "    autonumber".toList, "    participant U as User".toList,
              "    participant F1 as Application".toList,
              "    U->>F1: Interact".toList, "```".toList, [],
              "_Generated via heuristic fallback for request:_".toList] ++
            ['\n'] := by decide
    rw [hfront, List.append_assoc]
  · simp only [fallbackDiagram]
    exact intercalate_trailer question _ _ _ ['\n'] _ _ _

/-- Unfolding `specFirstFence` over a cons. -/
theorem specFirstFence_cons (c : Char) (rest : List Char) :
    specFirstFence (c :: rest) =
      if (c :: rest).take 3 = "```".toList then some 0
      else (specFirstFence rest).map (· + 1) := by
  unfold specFirstFence
  rw [List.length_cons, List.range_succ_eq_map, List.find?_cons,
    List.find?_map]
  by_cases h : (c :: rest).take 3 = "```".toList
  · simp [h]
  · simp only [List.drop_zero, decide_eq_false h, if_neg h,
      Function.comp_def, List.drop_succ_cons, Nat.succ_eq_add_one]

/-- The implementation's `indexOf`-style fence search agrees with the
spec-level least-index description. -/
theorem indexOfFence_eq_spec : ∀ text : List Char,
    indexOfFence text = specFirstFence text
  | [] => rfl
  | c :: rest => by
      rw [specFirstFence_cons]
      show (if (c :: rest).take 3 = "```".toList then some 0
        else (indexOfFence rest).map (· + 1)) = _
      rw [indexOfFence_eq_spec rest]

/-- Mapping first components commutes with inserting a pair whose index
is below every index in the list: the stable score-descending insertion
and the lexicographic (score, index) insertion place it identically. -/
theorem orderedInsert_map_fst (x : RetrievalResult × Nat) :
    ∀ P : List (RetrievalResult × Nat), (∀ y ∈ P, x.2 < y.2) →
      (P.orderedInsert lexRank x).map Prod.fst =
        (P.map Prod.fst).orderedInsert scoreDesc x.1
  | [], _ => rfl
  | y :: ys, hy => by
      have hidx : x.2 < y.2 := hy y (List.mem_cons_self y ys)
      by_cases hc : scoreDesc x.1 y.1
      · have hlex : lexRank x y := by
          rcases lt_or_eq_of_le hc with h | h
          · exact Or.inl h
          · exact Or.inr ⟨h.symm, le_of_lt hidx⟩
        simp only [List.orderedInsert, if_pos hlex, if_pos hc, List.map_cons]
      · have hlex : ¬lexRank x y := by
          intro h
          rcases h with h | h
          · exact hc (le_of_lt h)
          · exact hc (le_of_eq h.1.symm)
        simp only [List.orderedInsert, if_neg hlex, if_neg hc, List.map_cons]
        rw [orderedInsert_map_fst x ys
          (fun z hz => hy z (List.mem_cons_of_mem y hz))]

/-- On a list with strictly increasing original indices, the stable
score-descending sort of the results is the lexicographic
(score descending, index ascending) sort of the pairs. -/
theorem insertionSort_map_fst :
    ∀ P : List (RetrievalResult × Nat),
      List.Pairwise (fun a b => a.2 < b.2) P →
      (P.insertionSort lexRank).map Prod.fst =
        (P.map Prod.fst).insertionSort scoreDesc
  | [], _ => rfl
  | x :: P', h => by
      have hhead := (List.pairwise_cons.mp h).1
      have htail := (List.pairwise_cons.mp h).2
      show ((P'.insertionSort lexRank).orderedInsert lexRank x).map Prod.fst =
        ((P'.map Prod.fst).insertionSort scoreDesc).orderedInsert scoreDesc x.1
      rw [orderedInsert_map_fst x _ (fun y hy =>
        hhead y ((List.mem_insertionSort lexRank).mp hy))]
      rw [insertionSort_map_fst P' htail]

/-- The scored pairs carry strictly increasing original indices. -/
theorem scoredPairs_pairwise (vectors : List (List ℝ))
    (f : Nat × List ℝ → RetrievalResult) :
    List.Pairwise (fun a b => a.2 < b.2)
      (vectors.enum.map fun p => (f p, p.1)) := by
  rw [List.pairwise_map]
  have h1 : List.Pairwise (fun a b : Nat => a < b)
      (vectors.enum.map Prod.fst) := by
    rw [List.enum_map_fst]
    exact List.sorted_lt_range _
  exact List.pairwise_map.mp h1

/-- C1 (amended, `topK` restricted to nonnegative integers): retrieval
against an absent index fails with the `NoIndex`-class error; against any
present index (satisfying the `len(chunks) = len(vectors)` data-model
invariant), the result list is exactly the lexicographic
(score descending, original index ascending) ranking truncated to `topK`
entries — descending cosine-similarity order with ties broken by
original index — and it has exactly `min(topK, number of chunks)`
entries. -/
theorem retrieveContext_ordered_topK (embed : List Char → List ℝ)
    (question : List Char) (idx : Index) (topK : Int)
    (hk : 0 ≤ topK) (hlen : idx.chunks.length = idx.vectors.length) :
    retrieveContext embed question none topK =
      .error "No semantic index loaded.".toList ∧
    ∃ L, retrieveContext embed question (some idx) topK = .ok L ∧
      L = (((idx.vectors.enum.map fun p =>
          ((⟨cosineSimilarity p.2 (embed question),
            idx.chunks.getD p.1 ⟨[], [], []⟩⟩ : RetrievalResult),
            p.1)).insertionSort lexRank).map Prod.fst).take topK.toNat ∧
      L.length = min topK.toNat idx.chunks.length ∧
      L.Chain' (fun a b => b.score ≤ a.score) := by
  refine ⟨rfl, ?_⟩
  refine ⟨_, rfl, ?_, ?_, ?_⟩
  · rw [jsSlice, if_neg (not_lt.mpr hk)]
    rw [insertionSort_map_fst _ (scoredPairs_pairwise idx.vectors _),
      List.map_map]
    rfl
  · rw [jsSlice, if_neg (not_lt.mpr hk), List.length_take,
      List.length_insertionSort, List.length_map, List.enum_length, hlen]
  · rw [jsSlice, if_neg (not_lt.mpr hk)]
    have hs := List.sorted_insertionSort scoreDesc
      (idx.vectors.enum.map fun p =>
        (⟨cosineSimilarity p.2 (embed question),
          idx.chunks.getD p.1 ⟨[], [], []⟩⟩ : RetrievalResult))
    exact (hs.sublist (List.take_sublist _ _)).chain'

/-- C1 witness: the amended retrieval contract at a concrete embedding,
one-chunk index and `topK = 4`. -/
theorem retrieveContext_ordered_topK_witness :
    (0 : Int) ≤ 4 ∧
    sampleIndex.chunks.length = sampleIndex.vectors.length ∧
    (retrieveContext (fun _ => [1]) "q".toList none 4 =
      .error "No semantic index loaded.".toList ∧
    ∃ L, retrieveContext (fun _ => [1]) "q".toList (some sampleIndex) 4 =
        .ok L ∧
      L = (((sampleIndex.vectors.enum.map fun p =>
          ((⟨cosineSimilarity p.2 ((fun _ => [1]) "q".toList),
            sampleIndex.chunks.getD p.1 ⟨[], [], []⟩⟩ : RetrievalResult),
            p.1)).insertionSort lexRank).map Prod.fst).take (4 : Int).toNat ∧
      L.length = min (4 : Int).toNat sampleIndex.chunks.length ∧
      L.Chain' (fun a b => b.score ≤ a.score)) :=
  ⟨by norm_num, rfl,
   retrieveContext_ordered_topK (fun _ => [1]) "q".toList sampleIndex 4
     (by norm_num) rfl⟩

/-- C1 counterexample: for the original claim's "every integer topK" —
with two chunks and `topK = -1`, `Array.prototype.slice(0, -1)` counts
from the end, so the code returns one result, while
`min(topK, number of chunks) = -1`, which no result count can equal. -/
theorem retrieveContext_negative_topK_counterexample :
    (retrieveContext (fun _ => [1]) "q".toList (some twoChunkIndex)
        (-1)).map List.length = .ok 1 ∧
    ¬((1 : Int) = min (-1 : Int) (twoChunkIndex.chunks.length : Int)) := by
  constructor
  · show Except.map List.length
      (.ok (jsSlice (-1) ((twoChunkIndex.vectors.enum.map fun p =>
        (⟨cosineSimilarity p.2 ((fun _ => [1]) "q".toList),
          twoChunkIndex.chunks.getD p.1 ⟨[], [], []⟩⟩ :
            RetrievalResult)).insertionSort scoreDesc))) = .ok 1
    rw [Except.map]
    congr 1
    rw [jsSlice, if_pos (by norm_num), List.length_take,
      List.length_insertionSort, List.length_map, List.enum_length]
    rfl
  · decide

/-- Digit characters produced by `natCharsAux` are decimal digits. -/
theorem digit_isDigit : ∀ d, d < 10 → (Char.ofNat (48 + d)).isDigit = true := by
  decide

/-- The value of a produced digit character. -/
theorem digit_toNat : ∀ d, d < 10 → (Char.ofNat (48 + d)).toNat - 48 = d := by
  decide

/-- With sufficient fuel, `natCharsAux` is inverted by `charsVal`
(relative to any foldl seed). -/
theorem charsVal_natCharsAux :
    ∀ (fuel n a : Nat), n < fuel →
      (natCharsAux fuel n).foldl (fun a c => 10 * a + (c.toNat - 48)) a =
        10 ^ (natCharsAux fuel n).length * a + n := by
  intro fuel
  induction fuel with
  | zero => intro n a h; omega
  | succ f ih =>
      intro n a _
      by_cases h10 : n < 10
      · simp only [natCharsAux, if_pos h10, List.foldl_cons, List.foldl_nil,
          List.length_singleton, pow_one]
        rw [digit_toNat n h10]
      · have hn : 0 < n := by omega
        have hdiv : n / 10 < n := Nat.div_lt_self hn (by norm_num)
        have hfuel : n / 10 < f := by
          have : n ≤ f := by omega
          omega
        simp only [natCharsAux, if_neg h10, List.foldl_append,
          List.length_append, List.foldl_cons, List.foldl_nil,
          List.length_singleton]
        rw [ih (n / 10) a hfuel,
          digit_toNat (n % 10) (Nat.mod_lt n (by norm_num))]
        rw [pow_succ]
        have := Nat.div_add_mod n 10
        ring_nf
        omega

/-- `charsVal` inverts `natChars`. -/
theorem charsVal_natChars (n : Nat) : charsVal (natChars n) = n := by
  unfold charsVal natChars
  rw [charsVal_natCharsAux (n + 1) n 0 (Nat.lt_succ_self n)]
  simp

/-- `natChars` is injective. -/
theorem natChars_injective {m n : Nat} (h : natChars m = natChars n) :
    m = n := by
  have hm := charsVal_natChars m
  rw [h, charsVal_natChars] at hm
  exact hm.symm

/-- Every character `natCharsAux` produces is a decimal digit. -/
theorem natCharsAux_digits :
    ∀ (fuel n : Nat), n < fuel → ∀ c ∈ natCharsAux fuel n, c.isDigit = true := by
  intro fuel
  induction fuel with
  | zero => intro n h; omega
  | succ f ih =>
      intro n _ c hc
      by_cases h10 : n < 10
      · simp only [natCharsAux, if_pos h10, List.mem_singleton] at hc
        rw [hc]
        exact digit_isDigit n h10
      · simp only [natCharsAux, if_neg h10, List.mem_append,
          List.mem_singleton] at hc
        rcases hc with hc | hc
        · have hn : 0 < n := by omega
          have hfuel : n / 10 < f := by
            have := Nat.div_lt_self hn (show 1 < 10 by norm_num)
            omega
          exact ih (n / 10) hfuel c hc
        · rw [hc]
          exact digit_isDigit (n % 10) (Nat.mod_lt n (by norm_num))

/-- Every character of `natChars n` is a decimal digit. -/
theorem natChars_digits (n : Nat) : ∀ c ∈ natChars n, c.isDigit = true :=
  natCharsAux_digits (n + 1) n (Nat.lt_succ_self n)

/-- `takeWhile` stops exactly at the first failing element. -/
theorem takeWhile_append_not {α : Type} (p : α → Bool) :
    ∀ (l1 : List α) (c : α) (l2 : List α), (∀ a ∈ l1, p a = true) →
      p c = false → (l1 ++ c :: l2).takeWhile p = l1 := by
  intro l1
  induction l1 with
  | nil =>
      intro c l2 _ hc
      simp [List.takeWhile_cons, hc]
  | cons a t ih =>
      intro c l2 hall hc
      have ha : p a = true := hall a (List.mem_cons_self a t)
      simp only [List.cons_append, List.takeWhile_cons, ha, if_true]
      rw [ih c l2 (fun x hx => hall x (List.mem_cons_of_mem a hx)) hc]

/-- Injectivity of the chunk-id template `path ++ "::" ++ natChars i`:
the decimal suffix contains no colon and the character before it is a
colon, so the id determines both the path and the ordinal. -/
theorem chunkId_inj {p1 p2 : List Char} {i1 i2 : Nat}
    (h : p1 ++ "::".toList ++ natChars i1 = p2 ++ "::".toList ++ natChars i2) :
    p1 = p2 ∧ i1 = i2 := by
  have hrev := congrArg List.reverse h
  simp only [List.reverse_append] at hrev
  have hshape : ∀ (p : List Char) (i : Nat),
      (natChars i).reverse ++ ("::".toList.reverse ++ p.reverse) =
        (natChars i).reverse ++ ':' :: ':' :: p.reverse := by
    intro p i
    rfl
  rw [hshape p1 i1, hshape p2 i2] at hrev
  have htw := congrArg (List.takeWhile Char.isDigit) hrev
  have hdig : ∀ (i : Nat),
      ((natChars i).reverse ++ ':' :: ':' :: p1.reverse).takeWhile
          Char.isDigit = (natChars i).reverse := by
    intro i
    exact takeWhile_append_not Char.isDigit (natChars i).reverse ':' _
      (fun a ha => natChars_digits i a (List.mem_reverse.mp ha)) (by decide)
  have hdig2 : ∀ (i : Nat),
      ((natChars i).reverse ++ ':' :: ':' :: p2.reverse).takeWhile
          Char.isDigit = (natChars i).reverse := by
    intro i
    exact takeWhile_append_not Char.isDigit (natChars i).reverse ':' _
      (fun a ha => natChars_digits i a (List.mem_reverse.mp ha)) (by decide)
  rw [hdig i1, hdig2 i2] at htw
  have hi : i1 = i2 :=
    natChars_injective (List.reverse_injective htw)
  subst hi
  refine ⟨?_, rfl⟩
  have h' : (p1 ++ "::".toList) ++ natChars i1 =
      (p2 ++ "::".toList) ++ natChars i1 := by
    simpa [List.append_assoc] using h
  have h'' := List.append_cancel_right h'
  exact List.append_cancel_right h''

/-- Chunks assembled from an enumerated list of texts carry the given
path and the positional id. -/
theorem enumMap_id_path (texts : List (List Char)) (path : List Char)
    (i : Nat) (c : Chunk)
    (h : (texts.enum.map (fun p =>
        ({ id := path ++ "::".toList ++ natChars p.1, path := path,
           content := p.2 } : Chunk)))[i]? = some c) :
    c.id = path ++ "::".toList ++ natChars i ∧ c.path = path := by
  rw [List.getElem?_map, List.getElem?_enum] at h
  rcases ht : texts[i]? with _ | t
  · rw [ht] at h
    simp at h
  · rw [ht] at h
    have h' : (⟨path ++ "::".toList ++ natChars i, path, t⟩ : Chunk) = c := by
      simpa using h
    rw [← h']
    exact ⟨rfl, rfl⟩

/-- Every chunk of one file carries that file's path, and its id is the
path, a double colon, and its ordinal position in the file. -/
theorem chunkSourceFile_id_path (content path : List Char) (i : Nat)
    (c : Chunk) (h : (chunkSourceFile content path)[i]? = some c) :
    c.id = path ++ "::".toList ++ natChars i ∧ c.path = path := by
  unfold chunkSourceFile at h
  by_cases he : content.isEmpty
  · rw [if_pos he] at h
    simp at h
  · rw [if_neg he] at h
    exact enumMap_id_path _ path i c h

/-- The ids produced for one file during the build, as a function of the
fetch outcome. -/
theorem perFile_id_shape (fetch : List Char → Option (List Char))
    (file : FileRef) (x : List Char)
    (hx : x ∈ (match fetch file.path with
      | some content => chunkSourceFile content file.path
      | none => []).map Chunk.id) :
    ∃ i, x = file.path ++ "::".toList ++ natChars i := by
  rcases hf : fetch file.path with _ | content
  · rw [hf] at hx
    simp at hx
  · rw [hf] at hx
    rcases List.mem_map.mp hx with ⟨c, hc, hcx⟩
    rcases List.getElem_of_mem hc with ⟨j, hj, hcj⟩
    have := chunkSourceFile_id_path content file.path j c
      (by rw [List.getElem?_eq_getElem hj, hcj])
    exact ⟨j, by rw [← hcx, this.1]⟩

/-- The ids of the chunks of one file are pairwise distinct (they carry
distinct ordinals). -/
theorem enumMap_ids_nodup (texts : List (List Char)) (path : List Char) :
    ((texts.enum.map (fun p =>
        ({ id := path ++ "::".toList ++ natChars p.1, path := path,
           content := p.2 } : Chunk))).map Chunk.id).Nodup := by
  rw [List.map_map]
  have h1 : (Chunk.id ∘ fun p : Nat × List Char =>
      ({ id := path ++ "::".toList ++ natChars p.1, path := path,
         content := p.2 } : Chunk)) =
      (fun i => path ++ "::".toList ++ natChars i) ∘ Prod.fst := rfl
  rw [h1, ← List.map_map, List.enum_map_fst]
  refine (List.nodup_range _).map ?_
  intro i j hij
  exact (chunkId_inj hij).2

/-- The ids of `chunkSourceFile` are pairwise distinct. -/
theorem chunkSourceFile_ids_nodup (content path : List Char) :
    ((chunkSourceFile content path).map Chunk.id).Nodup := by
  unfold chunkSourceFile
  by_cases he : content.isEmpty
  · simp [he]
  · rw [if_neg he]
    exact enumMap_ids_nodup _ path

/-- C6: within one build — over any file set whose paths are pairwise
distinct, including files with identical content at different paths —
the ids of all produced chunks are pairwise distinct, and each id is
derived deterministically from the chunk's path and its ordinal position
within its file (`path ++ "::" ++ ordinal`). -/
theorem build_chunkIds_unique (owner repo branch : List Char)
    (files : List FileRef) (fetch : List Char → Option (List Char))
    (embed : List Char → List ℝ) (st : Storage) (ok : Bool)
    (hpaths : (files.map FileRef.path).Nodup) :
    ((buildRagIndex owner repo branch files fetch embed st
        ok).1.chunks.map Chunk.id).Nodup ∧
    ∀ content path i c, (chunkSourceFile content path)[i]? = some c →
      c.id = path ++ "::".toList ++ natChars i ∧ c.path = path := by
  refine ⟨?_, fun content path i c h =>
    chunkSourceFile_id_path content path i c h⟩
  simp only [buildRagIndex]
  rw [List.map_flatten, List.nodup_flatten]
  constructor
  · intro l hl
    rw [List.map_map] at hl
    rcases List.mem_map.mp hl with ⟨file, _, hfl⟩
    rcases hf : fetch file.path with _ | content
    · rw [← hfl]
      simp [hf]
    · rw [← hfl]
      show ((match fetch file.path with
        | some content => chunkSourceFile content file.path
        | none => []).map Chunk.id).Nodup
      rw [hf]
      exact chunkSourceFile_ids_nodup content file.path
  · rw [List.map_map, List.pairwise_map]
    have hp : List.Pairwise (fun a b : FileRef => a.path ≠ b.path) files :=
      List.pairwise_map.mp hpaths
    have hpt : List.Pairwise (fun a b : FileRef => a.path ≠ b.path)
        (files.take MAX_FILES_FOR_INDEX) :=
      hp.sublist (List.take_sublist _ _)
    refine hpt.imp ?_
    intro f1 f2 hne x hx1 hx2
    rcases perFile_id_shape fetch f1 x hx1 with ⟨i, hi⟩
    rcases perFile_id_shape fetch f2 x hx2 with ⟨j, hj⟩
    exact hne (chunkId_inj (hi.symm.trans hj)).1

/-- C6 witness: a build over two files with identical content at
distinct paths. -/
theorem build_chunkIds_unique_witness :
    ([(⟨"a".toList⟩ : FileRef), ⟨"b".toList⟩].map FileRef.path).Nodup ∧
    (((buildRagIndex "o".toList "r".toList "b".toList
        [⟨"a".toList⟩, ⟨"b".toList⟩] (fun _ => some "same text".toList)
        (fun _ => [1]) (fun _ => none) true).1.chunks.map Chunk.id).Nodup ∧
    ∀ content path i c, (chunkSourceFile content path)[i]? = some c →
      c.id = path ++ "::".toList ++ natChars i ∧ c.path = path) :=
  ⟨by decide,
   build_chunkIds_unique "o".toList "r".toList "b".toList
     [⟨"a".toList⟩, ⟨"b".toList⟩] (fun _ => some "same text".toList)
     (fun _ => [1]) (fun _ => none) true (by decide)⟩

/-- C2 (amended): the diagram generator is a total function into
`GenerationResult`: on any provider failure it returns the heuristic
builder's output with `usedModel=false`, and on provider success it
returns `usedModel=true` with the raw output's *trimmed* suffix from the
first fence marker onward, or the trimmed raw text when no marker
exists. -/
theorem generateDiagram_total_spec (question : List Char)
    (contextChunks : List RetrievalResult) (features : List Feature)
    (o : Option (List Char)) :
    (generateDiagramDescription question contextChunks features
        (.error ())).usedLLM = false ∧
    (generateDiagramDescription question contextChunks features
        (.error ())).result =
      fallbackDiagram question contextChunks features ∧
    (generateDiagramDescription question contextChunks features
        (.ok o)).usedLLM = true ∧
    (generateDiagramDescription question contextChunks features
        (.ok o)).result = claimSanitizeTrimmed (o.getD []) := by
  refine ⟨rfl, rfl, rfl, ?_⟩
  show sanitizeDiagramOutput (o.getD []) = claimSanitizeTrimmed (o.getD [])
  generalize o.getD [] = t
  cases t with
  | nil => rfl
  | cons c rest =>
      unfold sanitizeDiagramOutput claimSanitizeTrimmed
      rw [indexOfFence_eq_spec]
      simp

/-- C3: the chunker flushes the buffer exactly when appending the next
section would make it reach or exceed `MAX_CHUNK_SIZE`
(`MAX_CHUNK_TOKENS` in the code); re-splitting the emitted chunks'
(trimmed) contents and concatenating in order recreates the original
sequence of blank-line-separated sections; and no chunk's content
exceeds the size budget except a chunk that is a single original section
itself exceeding the budget. -/
theorem chunker_flush_reconstruct_bound (content path : List Char) :
    (∀ (st : List (List Char) × List Char) (sect : List Char),
      chunkStep st sect =
        if MAX_CHUNK_TOKENS ≤ st.2.length + sect.length then
          (st.1 ++ [jsTrim st.2], sect ++ dblNl)
        else (st.1, st.2 ++ sect ++ dblNl)) ∧
    ((chunkSourceFile content path).map
      (fun c => sectionsOf c.content)).flatten = sectionsOf content ∧
    ∀ c ∈ chunkSourceFile content path,
      c.content.length ≤ MAX_CHUNK_TOKENS ∨
        (c.content ∈ sectionsOf content ∧
          MAX_CHUNK_TOKENS < c.content.length) := by
  refine ⟨?_, ?_, ?_⟩
  · intro st sect
    unfold chunkStep
    by_cases h : st.2.length + sect.length < MAX_CHUNK_TOKENS
    · rw [if_pos h, if_neg (by omega)]
    · rw [if_neg h, if_pos (by omega)]
  · by_cases he : content.isEmpty
    · have h0 : content = [] := List.isEmpty_iff.mp he
      subst h0
      rfl
    · unfold chunkSourceFile
      rw [if_neg he]
      rw [List.map_map]
      have h1 : ((fun c : Chunk => sectionsOf c.content) ∘ fun p :
          Nat × List Char =>
          (⟨path ++ "::".toList ++ natChars p.1, path, p.2⟩ : Chunk)) =
          sectionsOf ∘ Prod.snd := rfl
      rw [h1, ← List.map_map, List.enum_map_snd]
      have h2 := fold_reconstruct (sectionsOf content) [] []
        (by simp) (sections_good content)
      simpa using h2
  · intro c hc
    by_cases he : content.isEmpty
    · unfold chunkSourceFile at hc
      rw [if_pos he] at hc
      simp at hc
    · unfold chunkSourceFile at hc
      rw [if_neg he] at hc
      rcases List.mem_map.mp hc with ⟨p, hp, hrfl⟩
      have hmem := List.snd_mem_of_mem_enum hp
      have hP := fold_bound (sectionsOf content) (sectionsOf content) [] []
        (by simp) (sections_good content) (by simp) (fun _ hs => hs)
        (Or.inl rfl) (by simp) p.2 hmem
      have hcc : c.content = p.2 := by rw [← hrfl]
      rw [hcc]
      by_cases hlen : p.2.length ≤ MAX_CHUNK_TOKENS
      · left
        exact hlen
      · right
        rcases hP with h | h
        · exact absurd h hlen
        · exact ⟨h, by omega⟩

/-- C2 counterexample: on provider output `"x"` followed by a fenced
block ending in a newline, the code returns the *trimmed* suffix from
the fence marker, which differs from the untrimmed suffix the claim
describes. -/
theorem generateDiagram_sanitize_counterexample :
    (generateDiagramDescription "q".toList [] []
        (.ok (some "x```y\n".toList))).usedLLM = true ∧
    (generateDiagramDescription "q".toList [] []
        (.ok (some "x```y\n".toList))).result = "```y".toList ∧
    claimSanitize "x```y\n".toList = "```y\n".toList ∧
    "```y".toList ≠ "```y\n".toList :=
  ⟨rfl, by decide, by decide, by decide⟩
